import Mathlib

/-!
Shallow embedding of `src/diferenca_ofertas.py`.

Cells extracted from the PDF tables are modelled as `String` (the program
converts cells with `str(...)` before use; `None` cells produced by the PDF
extractor are outside this model).  A pandas `DataFrame` produced by
`process_pdf_to_dataframe` is modelled as a `RecordSet`: an ordered column
schema (the header row), the data rows (each a list of cells, positionally
aligned with the schema), and the source label (the extracted date string).

pandas label lookup `row[col]` is modelled as lookup at the first index of
`col` in the schema (`columnValue`); label assignment `row[col] = v` as
`setColumn`.  This coincides with pandas exactly when column names are
unique, which is the spec's Schema invariant (names unique after trimming);
duplicate-labelled frames, where pandas returns sub-frames, are outside the
model.  The synthetic auxiliary column `COD_REF` added by
`compare_dataframes` (and dropped again at the end) is kept out of the
schema; the comparison loop's `if col == 'COD_REF': continue` is mirrored
by an explicit skip.  The `ORIGEM` provenance text and the cell-fill
styling metadata are rendering details and are not part of the model.

A Python exception escaping `compare_dataframes` (the `KeyError` raised by
`row2[col]` when a column of the first frame is absent from the second) is
modelled as `Except.error ()`; the `None` returned when no differences are
found is `Except.ok none`.
-/

namespace DiferencaOfertas

/-- First index in a list satisfying a Boolean predicate, if any.
Used to model both the header scan (`for i, row in enumerate(...)`, line 64)
and pandas label-to-position resolution. -/
def firstIdx {α : Type} (p : α → Bool) : List α → Option Nat
  | [] => none
  | a :: l => if p a then some 0 else (firstIdx p l).map (· + 1)

/-- `hasSubstrAux needle hay`: does `hay` contain `needle` as a contiguous
substring (Python's `needle in hay` on strings, character-list view)? -/
def hasSubstrAux (needle : List Char) : List Char → Bool
  | [] => needle.isEmpty
  | c :: rest => needle.isPrefixOf (c :: rest) || hasSubstrAux needle rest

/-- Python `needle in hay` for strings. -/
def strContains (hay needle : String) : Bool :=
  hasSubstrAux needle.toList hay.toList

/-- Python `str.strip()` (and pandas `.str.strip()`): remove leading and
trailing whitespace.  Defined structurally over the character list so that
it reduces inside the kernel, where `String.trim` gets stuck. -/
def strip (s : String) : String :=
  String.mk (((s.toList.dropWhile Char.isWhitespace).reverse.dropWhile
    Char.isWhitespace).reverse)

/-! ## Header location and normalization (`process_pdf_to_dataframe`, lines 58-88) -/

/-- The anchor token searched for in the header scan (line 65). -/
def anchorToken : String := "CÓD. REF"

/-- Line 65: `any("CÓD. REF" in str(cell) for cell in row)`. -/
def rowHasAnchor (row : List String) : Bool :=
  row.any (fun cell => strContains cell anchorToken)

/-- Lines 63-67: index of the first raw row containing the anchor token. -/
def findHeaderIdx (rows : List (List String)) : Option Nat :=
  firstIdx rowHasAnchor rows

/-- Lines 69-74: the header row index actually used; falls back to row 0
(printing a warning) when the scan finds nothing. -/
def headerIdx (rows : List (List String)) : Nat :=
  (findHeaderIdx rows).getD 0

/-- The schema: the cells of the selected header row (`actual_headers`). -/
def schemaOf (rows : List (List String)) : List String :=
  rows.getD (headerIdx rows) []

/-- Lines 77-86: keep the rows strictly after the header whose cell count
equals the schema length (line 79), then drop rows whose first cell is
empty after trimming (line 86: `df[df.iloc[:, 0].str.strip().astype(bool)]`).
Cell values themselves are stored unmodified. -/
def normalize (rows : List (List String)) : List (List String) :=
  (((rows.drop (headerIdx rows + 1)).filter
      (fun r => r.length == (schemaOf rows).length)).filter
    (fun r => strip (r.headD "") != ""))

/-! ## The diff engine (`compare_dataframes`, lines 90-150) -/

/-- A normalized tabular extract with its source label (the date string). -/
structure RecordSet where
  schema : List String
  rows : List (List String)
  label : String

/-- The key of a row: the trimmed first cell
(line 97: `df1.iloc[:, 0].str.strip()`). -/
def rowKey (r : List String) : String := strip (r.headD "")

/-- Lines 107-108 / 114 / 120-121: `df[df['COD_REF'] == code]` followed by
`.iloc[0]` — the first row whose key equals the code. -/
def lookup (rows : List (List String)) (k : String) : Option (List String) :=
  rows.find? (fun r => rowKey r == k)

/-- The multiset of keys of a record set. -/
def keys (S : RecordSet) : List String := S.rows.map rowKey

/-- Line 101: `set(df1['COD_REF']).union(set(df2['COD_REF']))`.  Python set
iteration order is unspecified (the spec says so explicitly); we fix one
deterministic enumeration of the union.  All verified properties are
insensitive to this order. -/
def allCodes (A B : RecordSet) : List String := (keys A ++ keys B).dedup

/-- pandas `row[col]`: the cell at the first schema position named `col`;
`none` models the `KeyError` when the label is absent (or the row is too
short, which cannot happen for well-formed frames). -/
def columnValue (schema row : List String) (col : String) : Option String :=
  (firstIdx (fun c => c == col) schema).bind (fun i => row.get? i)

/-- pandas `row[col] = v`: overwrite the cell at the first schema position
named `col` (no-op when absent, which never occurs in the program). -/
def setColumn (schema row : List String) (col v : String) : List String :=
  match firstIdx (fun c => c == col) schema with
  | some i => row.set i v
  | none => row

/-- One entry of the differences table: either a row exclusive to one
source (lines 111-117, `ORIGEM = "Exclusivo em <date>"`, whole row
highlighted) or a merged conflict row (lines 123-139, differing columns
listed and highlighted). -/
inductive DiffEntry where
  | exclusive (record : List String) (label : String)
  | conflict (merged : List String) (cols : List String)
deriving DecidableEq

/-- Lines 126-135: the comparison loop over `df1.columns`, skipping the
auxiliary `COD_REF` column, comparing trimmed string values, collecting
differing column names in iteration order and overwriting the merged row
with `"<val1>/<val2>"` at each differing column.  The accumulator carries
(differing columns so far, merged row so far); `none` models the `KeyError`
raised when a column of the first frame is missing from the second. -/
def compareCols (sA sB rA rB : List String) :
    List String → List String × List String → Option (List String × List String)
  | [], acc => some acc
  | col :: rest, acc =>
    if col = "COD_REF" then compareCols sA sB rA rB rest acc
    else
      match columnValue sA rA col, columnValue sB rB col with
      | some v1, some v2 =>
        if strip v1 = strip v2 then compareCols sA sB rA rB rest acc
        else compareCols sA sB rA rB rest
          (acc.1 ++ [col], setColumn sA acc.2 col (strip v1 ++ "/" ++ strip v2))
      | _, _ => none

/-- Lines 106-139: processing of a single code from the key union.
A code present in only one frame yields an exclusive entry wrapping the
first matching row and that frame's label; a code present in both yields a
conflict entry exactly when the comparison collects at least one differing
column.  The `(none, none)` case is unreachable for codes drawn from the
union (pandas would raise `IndexError`), modelled as an error. -/
def processCode (A B : RecordSet) (code : String) : Except Unit (Option DiffEntry) :=
  match lookup A.rows code, lookup B.rows code with
  | some rA, none => Except.ok (some (DiffEntry.exclusive rA A.label))
  | none, some rB => Except.ok (some (DiffEntry.exclusive rB B.label))
  | some rA, some rB =>
    match compareCols A.schema B.schema rA rB A.schema ([], rA) with
    | none => Except.error ()
    | some (dc, m) =>
      Except.ok (if dc.isEmpty then none else some (DiffEntry.conflict m dc))
  | none, none => Except.error ()

/-- Prepend the entry emitted for one code (if any) to the entries emitted
for the remaining codes. -/
def consOpt : Option DiffEntry → List DiffEntry → List DiffEntry
  | some e, l => e :: l
  | none, l => l

/-- The `for code in all_codes` loop (lines 106-139), accumulating the
emitted entries in iteration order. -/
def diffLoop (A B : RecordSet) : List String → Except Unit (List DiffEntry)
  | [] => Except.ok []
  | c :: cs =>
    match processCode A B c with
    | Except.error e => Except.error e
    | Except.ok o =>
      match diffLoop A B cs with
      | Except.error e => Except.error e
      | Except.ok rest => Except.ok (consOpt o rest)

/-- Lines 90-150, `compare_dataframes`: `Except.ok none` is the `return
None` of line 142 (the distinguished "no differences" result), `Except.ok
(some l)` the differences table, `Except.error ()` an escaping exception. -/
def compare_dataframes (A B : RecordSet) : Except Unit (Option (List DiffEntry)) :=
  match diffLoop A B (allCodes A B) with
  | Except.error e => Except.error e
  | Except.ok l => Except.ok (if l.isEmpty then none else some l)

/-- The entries of a diff result (`None` rendering as no rows). -/
def entriesOf : Option (List DiffEntry) → List DiffEntry
  | none => []
  | some l => l

/-- The entry emitted for one code, ignoring errors; used to state that the
overall result is the concatenation of the per-code emissions. -/
def emitted (A B : RecordSet) (c : String) : Option DiffEntry :=
  match processCode A B c with
  | Except.ok o => o
  | Except.error _ => none

/-- The branch condition of lines 130-133 for one column, as a predicate:
the column is not the auxiliary `COD_REF` and the trimmed looked-up values
differ.  (The `getD ""` defaults are never exercised on runs where the
comparison succeeds.) -/
def colDiffers (sA sB rA rB : List String) (col : String) : Bool :=
  if col = "COD_REF" then false
  else strip ((columnValue sA rA col).getD "") != strip ((columnValue sB rB col).getD "")

/-- The merged row of a conflict entry, described positionally: at each
schema position whose column differs, the trimmed first value, a slash and
the trimmed second value; elsewhere the first frame's original cell. -/
def mergedSpec (sA sB rA rB : List String) : List String :=
  (List.range sA.length).map (fun j =>
    if colDiffers sA sB rA rB (sA.getD j "")
    then strip ((columnValue sA rA (sA.getD j "")).getD "") ++ "/"
           ++ strip ((columnValue sB rB (sA.getD j "")).getD "")
    else rA.getD j "")

/-- An entry is an exclusive entry for key `k`. -/
def isExclusiveFor (k : String) : DiffEntry → Prop
  | DiffEntry.exclusive rec _ => rowKey rec = k
  | DiffEntry.conflict _ _ => False

/-! ## Sheet naming (`sanitize_sheet_name`, lines 11-16, and the collision
loop of `pdfs_to_excel_with_sheets`, lines 314-322) -/

/-- Line 13: the characters invalid in Excel sheet names. -/
def invalidChars : List Char := ['\\', '/', '*', '[', ']', ':', '?']

/-- Lines 11-16: each invalid character is replaced (not removed) by an
underscore via successive `name.replace(char, '_')`, then the result is
truncated to 31 characters. -/
def sanitize_sheet_name (name : String) : String :=
  String.mk ((invalidChars.foldl
    (fun s c => s.map (fun x => if x == c then '_' else x)) name.toList).take 31)

/-- Modelled from the spec: the sanitization the spec describes, which
strips (removes) the invalid characters before truncating.  Stated only to
be compared against `sanitize_sheet_name` above. -/
def sanitizeSpecStrip (name : String) : String :=
  String.mk ((name.toList.filter (fun x => !(invalidChars.contains x))).take 31)

/-- The candidate sheet names tried by lines 318-322: the base name, then
`base_1`, `base_2`, ... -/
def candidateName (base : String) : Nat → String
  | 0 => base
  | Nat.succ k => base ++ "_" ++ toString (k + 1)

/-- Lines 318-322: the `while sheet_name in writer.book.sheetnames` loop,
with explicit fuel (the loop terminates in Python because only finitely
many sheets exist). -/
def pickSheetName (existing : List String) (base : String) : Nat → Nat → Option String
  | _, 0 => none
  | i, Nat.succ fuel =>
    if existing.contains (candidateName base i)
    then pickSheetName existing base (i + 1) fuel
    else some (candidateName base i)

/-! ## Helper lemmas about `firstIdx`, `columnValue`, `setColumn` -/

theorem firstIdx_some_get? {α : Type} {p : α → Bool} {l : List α} {i : Nat}
    (h : firstIdx p l = some i) : ∃ a, l.get? i = some a ∧ p a = true := by
  induction l generalizing i with
  | nil => simp [firstIdx] at h
  | cons a t ih =>
    by_cases hpa : p a = true
    · simp [firstIdx, hpa] at h
      subst h
      exact ⟨a, rfl, hpa⟩
    · simp [firstIdx, hpa, Option.map_eq_some'] at h
      obtain ⟨j, hj, hji⟩ := h
      obtain ⟨b, hb, hpb⟩ := ih hj
      subst hji
      exact ⟨b, by simpa using hb, hpb⟩

theorem firstIdx_lt_length {α : Type} {p : α → Bool} {l : List α} {i : Nat}
    (h : firstIdx p l = some i) : i < l.length := by
  obtain ⟨a, ha, -⟩ := firstIdx_some_get? h
  exact (List.get?_eq_some.mp ha).1

theorem firstIdx_none_all {α : Type} {p : α → Bool} {l : List α}
    (h : firstIdx p l = none) : ∀ a ∈ l, p a = false := by
  induction l with
  | nil => intro a ha; cases ha
  | cons a t ih =>
    by_cases hpa : p a = true
    · simp [firstIdx, hpa] at h
    · intro b hb
      rcases List.mem_cons.mp hb with rfl | hb
      · exact Bool.eq_false_iff.mpr hpa
      · simp [firstIdx, hpa] at h
        exact ih h b hb

theorem firstIdx_isSome_of_mem {α : Type} {p : α → Bool} {l : List α} {a : α}
    (ha : a ∈ l) (hp : p a = true) : (firstIdx p l).isSome = true := by
  cases hfi : firstIdx p l with
  | some i => rfl
  | none => exact absurd hp (by simp [firstIdx_none_all hfi a ha])

theorem firstIdx_eq_of_get? {l : List String} {col : String} {j0 j : Nat}
    (hnd : l.Nodup) (h : firstIdx (fun c => c == col) l = some j0)
    (hj : l.get? j = some col) : j = j0 := by
  obtain ⟨a, ha, hpa⟩ := firstIdx_some_get? h
  have haeq : a = col := by simpa using hpa
  subst haeq
  exact List.get?_inj (List.get?_eq_some.mp hj).1 hnd (hj.trans ha.symm)

theorem columnValue_isSome_of_mem {schema row : List String} {col : String}
    (hc : col ∈ schema) (hlen : schema.length ≤ row.length) :
    (columnValue schema row col).isSome = true := by
  have hsi : (firstIdx (fun c => c == col) schema).isSome = true :=
    firstIdx_isSome_of_mem hc (by simp)
  cases hfi : firstIdx (fun c => c == col) schema with
  | none => rw [hfi] at hsi; cases hsi
  | some i =>
    have hi : i < schema.length := firstIdx_lt_length hfi
    have hir : i < row.length := lt_of_lt_of_le hi hlen
    simp [columnValue, hfi, List.getElem?_eq_getElem hir]

theorem columnValue_head {c0 : String} {t row : List String} :
    columnValue (c0 :: t) row c0 = row.get? 0 := by
  simp [columnValue, firstIdx]

theorem getD_get?_zero_eq_headD (row : List String) :
    (row.get? 0).getD "" = row.headD "" := by
  cases row <;> rfl

theorem setColumn_length (schema row : List String) (col v : String) :
    (setColumn schema row col v).length = row.length := by
  unfold setColumn
  cases firstIdx (fun c => c == col) schema <;> simp

theorem get?_set_self {α : Type} {l : List α} {i : Nat} {a : α} (h : i < l.length) :
    (l.set i a).get? i = some a := by
  rw [List.get?_set_eq]
  rw [List.get?_eq_get h]
  rfl

/-! ## Structure lemmas about the diff loop -/

theorem diffLoop_ok_filterMap {A B : RecordSet} {cs : List String} {l : List DiffEntry}
    (h : diffLoop A B cs = Except.ok l) : l = cs.filterMap (emitted A B) := by
  induction cs generalizing l with
  | nil =>
    simp [diffLoop] at h
    simp [h.symm]
  | cons c cs ih =>
    unfold diffLoop at h
    cases hpc : processCode A B c with
    | error e => rw [hpc] at h; cases h
    | ok o =>
      rw [hpc] at h
      cases hdl : diffLoop A B cs with
      | error e => rw [hdl] at h; cases h
      | ok rest =>
        rw [hdl] at h
        have hemit : emitted A B c = o := by simp [emitted, hpc]
        cases h
        rw [List.filterMap_cons, hemit]
        cases o with
        | some e => simp [consOpt, ih hdl]
        | none => simp [consOpt, ih hdl]

theorem diffLoop_ok_proc {A B : RecordSet} {cs : List String} {l : List DiffEntry} {c : String}
    (h : diffLoop A B cs = Except.ok l) (hc : c ∈ cs) :
    ∃ o, processCode A B c = Except.ok o := by
  induction cs generalizing l with
  | nil => cases hc
  | cons a cs ih =>
    unfold diffLoop at h
    cases hpc : processCode A B a with
    | error e => rw [hpc] at h; cases h
    | ok o =>
      rw [hpc] at h
      cases hdl : diffLoop A B cs with
      | error e => rw [hdl] at h; cases h
      | ok rest =>
        rcases List.mem_cons.mp hc with rfl | hc
        · exact ⟨o, hpc⟩
        · exact ih hdl hc

theorem compare_ok_entries {A B : RecordSet} {res : Option (List DiffEntry)}
    (h : compare_dataframes A B = Except.ok res) :
    ∃ l, diffLoop A B (allCodes A B) = Except.ok l ∧ entriesOf res = l := by
  unfold compare_dataframes at h
  cases hdl : diffLoop A B (allCodes A B) with
  | error e => rw [hdl] at h; cases h
  | ok l =>
    rw [hdl] at h
    refine ⟨l, rfl, ?_⟩
    have hres : res = (if l.isEmpty then none else some l) := by cases h; rfl
    subst hres
    by_cases he : l.isEmpty
    · simp [he, entriesOf, List.isEmpty_iff.mp he]
    · simp [he, entriesOf]

theorem emitted_ok {A B : RecordSet} {c : String} {e : DiffEntry}
    (h : emitted A B c = some e) : processCode A B c = Except.ok (some e) := by
  cases hpc : processCode A B c with
  | error u =>
    simp only [emitted, hpc] at h
    cases h
  | ok o =>
    simp only [emitted, hpc] at h
    rw [h]

/-! ## Lookup and per-code characterizations -/

theorem lookup_some_key {rows : List (List String)} {k : String} {r : List String}
    (h : lookup rows k = some r) : rowKey r = k := by
  simpa using List.find?_some h

theorem lookup_mem {rows : List (List String)} {k : String} {r : List String}
    (h : lookup rows k = some r) : r ∈ rows :=
  List.mem_of_find?_eq_some h

theorem lookup_isSome_of_mem_keys {S : RecordSet} {k : String}
    (h : k ∈ keys S) : ∃ r, lookup S.rows k = some r := by
  obtain ⟨r, hr, hk⟩ := List.mem_map.mp h
  have : (lookup S.rows k).isSome = true :=
    List.find?_isSome.mpr ⟨r, hr, by simp [hk]⟩
  exact Option.isSome_iff_exists.mp this

theorem lookup_eq_none_of_not_mem_keys {S : RecordSet} {k : String}
    (h : k ∉ keys S) : lookup S.rows k = none := by
  refine List.find?_eq_none.mpr (fun r hr hp => h ?_)
  exact List.mem_map.mpr ⟨r, hr, by simpa using hp⟩

theorem processCode_of_exclusiveA {A B : RecordSet} {c : String} {rA : List String}
    (hA : lookup A.rows c = some rA) (hB : lookup B.rows c = none) :
    processCode A B c = Except.ok (some (DiffEntry.exclusive rA A.label)) := by
  simp only [processCode, hA, hB]

theorem processCode_of_exclusiveB {A B : RecordSet} {c : String} {rB : List String}
    (hA : lookup A.rows c = none) (hB : lookup B.rows c = some rB) :
    processCode A B c = Except.ok (some (DiffEntry.exclusive rB B.label)) := by
  simp only [processCode, hA, hB]

theorem processCode_of_both {A B : RecordSet} {c : String} {rA rB m dc : List String}
    (hA : lookup A.rows c = some rA) (hB : lookup B.rows c = some rB)
    (hcc : compareCols A.schema B.schema rA rB A.schema ([], rA) = some (dc, m)) :
    processCode A B c =
      Except.ok (if dc.isEmpty then none else some (DiffEntry.conflict m dc)) := by
  simp only [processCode, hA, hB, hcc]

theorem processCode_of_neither {A B : RecordSet} {c : String}
    (hA : lookup A.rows c = none) (hB : lookup B.rows c = none) :
    processCode A B c = Except.error () := by
  simp only [processCode, hA, hB]

theorem processCode_of_both_err {A B : RecordSet} {c : String} {rA rB : List String}
    (hA : lookup A.rows c = some rA) (hB : lookup B.rows c = some rB)
    (hcc : compareCols A.schema B.schema rA rB A.schema ([], rA) = none) :
    processCode A B c = Except.error () := by
  simp only [processCode, hA, hB, hcc]

theorem processCode_exclusive_key {A B : RecordSet} {c : String} {rec : List String}
    {lb : String}
    (h : processCode A B c = Except.ok (some (DiffEntry.exclusive rec lb))) :
    rowKey rec = c := by
  cases hA : lookup A.rows c with
  | some rA =>
    cases hB : lookup B.rows c with
    | none =>
      rw [processCode_of_exclusiveA hA hB] at h
      simp only [Except.ok.injEq, Option.some.injEq, DiffEntry.exclusive.injEq] at h
      rw [← h.1]
      exact lookup_some_key hA
    | some rB =>
      cases hcc : compareCols A.schema B.schema rA rB A.schema ([], rA) with
      | none => rw [processCode_of_both_err hA hB hcc] at h; cases h
      | some p =>
        rw [processCode_of_both hA hB (by rw [hcc])] at h
        by_cases hdc : p.1.isEmpty
        · simp [hdc] at h
        · simp [hdc] at h
  | none =>
    cases hB : lookup B.rows c with
    | none => rw [processCode_of_neither hA hB] at h; cases h
    | some rB =>
      rw [processCode_of_exclusiveB hA hB] at h
      simp only [Except.ok.injEq, Option.some.injEq, DiffEntry.exclusive.injEq] at h
      rw [← h.1]
      exact lookup_some_key hB

theorem processCode_conflict {A B : RecordSet} {c : String} {m dc : List String}
    (h : processCode A B c = Except.ok (some (DiffEntry.conflict m dc))) :
    ∃ rA rB, lookup A.rows c = some rA ∧ lookup B.rows c = some rB ∧
      compareCols A.schema B.schema rA rB A.schema ([], rA) = some (dc, m) ∧ dc ≠ [] := by
  cases hA : lookup A.rows c with
  | none =>
    cases hB : lookup B.rows c with
    | none => rw [processCode_of_neither hA hB] at h; cases h
    | some rB => rw [processCode_of_exclusiveB hA hB] at h; simp at h
  | some rA =>
    cases hB : lookup B.rows c with
    | none => rw [processCode_of_exclusiveA hA hB] at h; simp at h
    | some rB =>
      cases hcc : compareCols A.schema B.schema rA rB A.schema ([], rA) with
      | none => rw [processCode_of_both_err hA hB hcc] at h; cases h
      | some p =>
        rw [processCode_of_both hA hB (by rw [hcc])] at h
        by_cases hdc : p.1.isEmpty
        · simp [hdc] at h
        · simp only [hdc, if_false, Bool.false_eq_true, Except.ok.injEq,
            Option.some.injEq, DiffEntry.conflict.injEq] at h
          obtain ⟨h1, h2⟩ := h
          refine ⟨rA, rB, rfl, rfl, ?_, ?_⟩
          · rw [hcc, ← h1, ← h2]
          · rw [← h2]
            simpa [List.isEmpty_iff] using hdc

/-! ## Characterizing the comparison loop -/

theorem compareCols_fst {sA sB rA rB : List String} :
    ∀ cols acc dcm, compareCols sA sB rA rB cols acc = some dcm →
      dcm.1 = acc.1 ++ cols.filter (colDiffers sA sB rA rB) := by
  intro cols
  induction cols with
  | nil =>
    intro acc dcm h
    simp [compareCols] at h
    simp [← h]
  | cons col rest ih =>
    intro acc dcm h
    by_cases hcod : col = "COD_REF"
    · simp only [compareCols, if_pos hcod] at h
      have hcd : colDiffers sA sB rA rB col = false := by simp [colDiffers, hcod]
      rw [ih acc dcm h, List.filter_cons, hcd]
      simp
    · simp only [compareCols, if_neg hcod] at h
      cases hv1 : columnValue sA rA col with
      | none => rw [hv1] at h; cases h
      | some v1 =>
        cases hv2 : columnValue sB rB col with
        | none => rw [hv1, hv2] at h; cases h
        | some v2 =>
          by_cases htr : strip v1 = strip v2
          · simp only [hv1, hv2, if_pos htr] at h
            have hcd : colDiffers sA sB rA rB col = false := by
              simp [colDiffers, hcod, hv1, hv2, htr]
            rw [ih acc dcm h, List.filter_cons, hcd]
            simp
          · simp only [hv1, hv2, if_neg htr] at h
            have hcd : colDiffers sA sB rA rB col = true := by
              simp [colDiffers, hcod, hv1, hv2, bne_iff_ne]
              exact htr
            rw [ih _ dcm h, List.filter_cons, hcd]
            simp

theorem compareCols_snd_length {sA sB rA rB : List String} :
    ∀ cols acc dcm, compareCols sA sB rA rB cols acc = some dcm →
      dcm.2.length = acc.2.length := by
  intro cols
  induction cols with
  | nil =>
    intro acc dcm h
    simp [compareCols] at h
    simp [← h]
  | cons col rest ih =>
    intro acc dcm h
    by_cases hcod : col = "COD_REF"
    · simp only [compareCols, if_pos hcod] at h
      exact ih acc dcm h
    · simp only [compareCols, if_neg hcod] at h
      cases hv1 : columnValue sA rA col with
      | none => rw [hv1] at h; cases h
      | some v1 =>
        cases hv2 : columnValue sB rB col with
        | none => rw [hv1, hv2] at h; cases h
        | some v2 =>
          by_cases htr : strip v1 = strip v2
          · simp only [hv1, hv2, if_pos htr] at h
            exact ih acc dcm h
          · simp only [hv1, hv2, if_neg htr] at h
            have := ih _ dcm h
            simpa [setColumn_length] using this

theorem compareCols_isSome {sA sB rA rB : List String} :
    ∀ cols acc,
      (∀ col ∈ cols, col = "COD_REF" ∨
        ((columnValue sA rA col).isSome ∧ (columnValue sB rB col).isSome)) →
      (compareCols sA sB rA rB cols acc).isSome = true := by
  intro cols
  induction cols with
  | nil => intro acc _; simp [compareCols]
  | cons col rest ih =>
    intro acc hall
    by_cases hcod : col = "COD_REF"
    · simp only [compareCols, if_pos hcod]
      exact ih acc (fun c hc => hall c (List.mem_cons_of_mem col hc))
    · simp only [compareCols, if_neg hcod]
      rcases hall col (List.mem_cons_self col rest) with h | ⟨h1, h2⟩
      · exact absurd h hcod
      · obtain ⟨v1, hv1⟩ := Option.isSome_iff_exists.mp h1
        obtain ⟨v2, hv2⟩ := Option.isSome_iff_exists.mp h2
        simp only [hv1, hv2]
        by_cases htr : strip v1 = strip v2
        · rw [if_pos htr]
          exact ih acc (fun c hc => hall c (List.mem_cons_of_mem col hc))
        · rw [if_neg htr]
          exact ih _ (fun c hc => hall c (List.mem_cons_of_mem col hc))

theorem compareCols_self {sA rA : List String} (hlen : sA.length ≤ rA.length) :
    ∀ cols acc, (∀ col ∈ cols, col ∈ sA) →
      compareCols sA sA rA rA cols acc = some acc := by
  intro cols
  induction cols with
  | nil => intro acc _; rfl
  | cons col rest ih =>
    intro acc hall
    by_cases hcod : col = "COD_REF"
    · simp only [compareCols, if_pos hcod]
      exact ih acc (fun c hc => hall c (List.mem_cons_of_mem col hc))
    · simp only [compareCols, if_neg hcod]
      have hs : (columnValue sA rA col).isSome = true :=
        columnValue_isSome_of_mem (hall col (List.mem_cons_self col rest)) hlen
      obtain ⟨v, hv⟩ := Option.isSome_iff_exists.mp hs
      simp only [hv, if_pos rfl]
      exact ih acc (fun c hc => hall c (List.mem_cons_of_mem col hc))

theorem get?_eq_some_getD {α : Type} (l : List α) (d : α) {j : Nat} (hj : j < l.length) :
    l.get? j = some (l.getD j d) := by
  rw [List.getD_eq_get?, List.get?_eq_get hj]
  rfl

theorem not_and_right_false {Q : Prop} {b : Bool} (hb : b = false) :
    ¬ (Q ∧ b = true) := by
  intro hc
  rw [hb] at hc
  exact absurd hc.2 (by simp)

theorem mem_cons_and_iff {α : Type} {x col : α} {rest : List α} {P : Prop}
    (hne : x ≠ col) : (x ∈ col :: rest ∧ P) ↔ (x ∈ rest ∧ P) := by
  constructor
  · intro hc
    rcases List.mem_cons.mp hc.1 with he | hm
    · exact absurd he hne
    · exact ⟨hm, hc.2⟩
  · intro hc
    exact ⟨List.mem_cons_of_mem col hc.1, hc.2⟩

/-- Pointwise description of the merged row built by the comparison loop:
positions whose (not-yet-processed) column differs hold the slash-joined
trimmed values, all other positions are untouched. -/
theorem compareCols_get? {sA sB rA rB : List String} (hnd : sA.Nodup) :
    ∀ cols dc0 m0 dc m, cols <:+ sA → m0.length = sA.length →
      compareCols sA sB rA rB cols (dc0, m0) = some (dc, m) →
      ∀ j, j < sA.length →
        m.get? j =
          if sA.getD j "" ∈ cols ∧ colDiffers sA sB rA rB (sA.getD j "") = true
          then some (strip ((columnValue sA rA (sA.getD j "")).getD "") ++ "/"
                 ++ strip ((columnValue sB rB (sA.getD j "")).getD ""))
          else m0.get? j := by
  intro cols
  induction cols with
  | nil =>
    intro dc0 m0 dc m _ _ h j hj
    simp [compareCols] at h
    obtain ⟨rfl, rfl⟩ := h
    simp
  | cons col rest ih =>
    intro dc0 m0 dc m hsuf hm0len h j hj
    have hsufr : rest <:+ sA := (List.suffix_cons col rest).trans hsuf
    have hcolmem : col ∈ sA := hsuf.sublist.subset (List.mem_cons_self col rest)
    have hcolnot : col ∉ rest :=
      (List.nodup_cons.mp (List.Nodup.sublist hsuf.sublist hnd)).1
    by_cases hcod : col = "COD_REF"
    · simp only [compareCols, if_pos hcod] at h
      have ihj := ih dc0 m0 dc m hsufr hm0len h j hj
      by_cases hceq : sA.getD j "" = col
      · have hPf : colDiffers sA sB rA rB (sA.getD j "") = false := by
          rw [hceq]
          simp [colDiffers, hcod]
        rw [ihj, if_neg (not_and_right_false hPf), if_neg (not_and_right_false hPf)]
      · rw [ihj, if_congr (mem_cons_and_iff hceq) rfl rfl]
    · simp only [compareCols, if_neg hcod] at h
      cases hv1 : columnValue sA rA col with
      | none => rw [hv1] at h; simp at h
      | some v1 =>
        cases hv2 : columnValue sB rB col with
        | none => rw [hv1, hv2] at h; simp at h
        | some v2 =>
          by_cases htr : strip v1 = strip v2
          · simp only [hv1, hv2, if_pos htr] at h
            have ihj := ih dc0 m0 dc m hsufr hm0len h j hj
            by_cases hceq : sA.getD j "" = col
            · have hPf : colDiffers sA sB rA rB (sA.getD j "") = false := by
                rw [hceq]
                simp [colDiffers, hcod, hv1, hv2, htr]
              rw [ihj, if_neg (not_and_right_false hPf), if_neg (not_and_right_false hPf)]
            · rw [ihj, if_congr (mem_cons_and_iff hceq) rfl rfl]
          · simp only [hv1, hv2, if_neg htr] at h
            have hsetlen :
                (setColumn sA m0 col (strip v1 ++ "/" ++ strip v2)).length = sA.length := by
              rw [setColumn_length]
              exact hm0len
            have ihj := ih (dc0 ++ [col]) _ dc m hsufr hsetlen h j hj
            have hfis : (firstIdx (fun c => c == col) sA).isSome = true :=
              firstIdx_isSome_of_mem hcolmem (by simp)
            obtain ⟨j0, hfi⟩ := Option.isSome_iff_exists.mp hfis
            have hj0lt : j0 < sA.length := firstIdx_lt_length hfi
            have hj0get : sA.get? j0 = some col := by
              obtain ⟨a, ha, hpa⟩ := firstIdx_some_get? hfi
              rw [ha]
              simpa using hpa
            have hsetj : ∀ i, (setColumn sA m0 col (strip v1 ++ "/" ++ strip v2)).get? i =
                if i = j0 then some (strip v1 ++ "/" ++ strip v2) else m0.get? i := by
              intro i
              unfold setColumn
              rw [hfi]
              by_cases hij : i = j0
              · subst hij
                rw [if_pos rfl]
                exact get?_set_self (hm0len ▸ hj0lt)
              · rw [if_neg hij]
                exact List.get?_set_ne _ _ (fun he => hij he.symm)
            by_cases hceq : sA.getD j "" = col
            · have hgj : sA.get? j = some col := by
                rw [get?_eq_some_getD sA "" hj, hceq]
              have hjj0 : j = j0 := firstIdx_eq_of_get? hnd hfi hgj
              have hPt : colDiffers sA sB rA rB (sA.getD j "") = true := by
                rw [hceq]
                simp only [colDiffers, if_neg hcod, hv1, hv2, Option.getD_some]
                simp [bne_iff_ne]
                exact htr
              have hnotrest : ¬ (sA.getD j "" ∈ rest ∧
                  colDiffers sA sB rA rB (sA.getD j "") = true) := by
                intro hc
                exact hcolnot (hceq ▸ hc.1)
              rw [ihj, if_neg hnotrest, hsetj j, if_pos hjj0]
              rw [if_pos ⟨by rw [hceq]; exact List.mem_cons_self col rest, hPt⟩]
              rw [hceq, hv1, hv2]
              rfl
            · have hjne : j ≠ j0 := by
                intro he
                apply hceq
                subst he
                have hg := get?_eq_some_getD sA "" hj
                rw [hj0get] at hg
                exact (Option.some.inj hg).symm
              rw [ihj, hsetj j, if_neg hjne, if_congr (mem_cons_and_iff hceq) rfl rfl]

/-- The merged row of a successful full comparison run equals its
positional description `mergedSpec`. -/
theorem compareCols_merged {sA sB rA rB dc m : List String}
    (hnd : sA.Nodup) (hlen : rA.length = sA.length)
    (h : compareCols sA sB rA rB sA ([], rA) = some (dc, m)) :
    m = mergedSpec sA sB rA rB := by
  have hml : m.length = rA.length := compareCols_snd_length sA ([], rA) (dc, m) h
  apply List.ext_get?
  intro j
  by_cases hj : j < sA.length
  · have hpt := compareCols_get? hnd sA [] rA dc m (List.suffix_refl sA) hlen h j hj
    rw [hpt]
    have hms : (mergedSpec sA sB rA rB).get? j =
        some (if colDiffers sA sB rA rB (sA.getD j "")
          then strip ((columnValue sA rA (sA.getD j "")).getD "") ++ "/"
                 ++ strip ((columnValue sB rB (sA.getD j "")).getD "")
          else rA.getD j "") := by
      unfold mergedSpec
      rw [List.get?_map, List.get?_range hj]
      rfl
    rw [hms]
    have hmem : sA.getD j "" ∈ sA := List.get?_mem (get?_eq_some_getD sA "" hj)
    by_cases hP : colDiffers sA sB rA rB (sA.getD j "") = true
    · rw [if_pos ⟨hmem, hP⟩, if_pos hP]
    · rw [if_neg (fun hc => hP hc.2), if_neg hP]
      exact get?_eq_some_getD rA "" (by omega)
  · have h1 : m.get? j = none := List.get?_eq_none.mpr (by omega)
    have h2 : (mergedSpec sA sB rA rB).get? j = none := by
      apply List.get?_eq_none.mpr
      simp [mergedSpec]
      omega
    rw [h1, h2]

/-! ## Counting lemmas -/

theorem count_filterMap_eq_countP {α β : Type} [DecidableEq β] (f : α → Option β)
    (l : List α) (b : β) :
    (l.filterMap f).count b = l.countP (fun a => f a == some b) := by
  induction l with
  | nil => rfl
  | cons a t ih =>
    rw [List.filterMap_cons, List.countP_cons]
    cases hfa : f a with
    | none => simp [hfa, ih]
    | some e =>
      rw [List.count_cons, ih]
      by_cases he : e = b
      · simp [hfa, he]
      · simp [hfa, he]

theorem countP_eq_one_of_unique {α : Type} {p : α → Bool} {l : List α} {k : α}
    (hnd : l.Nodup) (hk : k ∈ l) (hpk : p k = true)
    (huniq : ∀ c ∈ l, p c = true → c = k) : l.countP p = 1 := by
  induction l with
  | nil => cases hk
  | cons a t ih =>
    obtain ⟨ha, hnt⟩ := List.nodup_cons.mp hnd
    rw [List.countP_cons]
    rcases List.mem_cons.mp hk with rfl | hk
    · rw [if_pos hpk]
      have hz : t.countP p = 0 := by
        refine List.countP_eq_zero.mpr (fun c hc hpc => ?_)
        have hck : c = k := huniq c (List.mem_cons_of_mem k hc) hpc
        exact ha (hck ▸ hc)
      rw [hz]
    · have hak : ¬ p a = true := by
        intro hpa
        have : a = k := huniq a (List.mem_cons_self a t) hpa
        exact ha (this ▸ hk)
      rw [if_neg hak]
      have := ih hnt hk (fun c hc hpc => huniq c (List.mem_cons_of_mem a hc) hpc)
      simp [this]

theorem firstIdx_some_min {α : Type} {p : α → Bool} {l : List α} {i : Nat}
    (h : firstIdx p l = some i) :
    ∀ j, j < i → ∀ b, l.get? j = some b → p b = false := by
  induction l generalizing i with
  | nil => simp [firstIdx] at h
  | cons a t ih =>
    by_cases hpa : p a = true
    · simp [firstIdx, hpa] at h
      subst h
      intro j hj
      omega
    · simp [firstIdx, hpa, Option.map_eq_some'] at h
      obtain ⟨i', hi', rfl⟩ := h
      intro j hj b hb
      cases j with
      | zero =>
        have : a = b := by simpa using hb
        subst this
        exact Bool.eq_false_iff.mpr hpa
      | succ j' =>
        exact ih hi' j' (by omega) b (by simpa using hb)

theorem head?_some_cons {α : Type} {l : List α} {x : α} (h : l.head? = some x) :
    ∃ t, l = x :: t := by
  cases l with
  | nil => cases h
  | cons a t =>
    have : a = x := by simpa using h
    subst this
    exact ⟨t, rfl⟩

/-- The key column (the shared first column name of both schemas) never
differs: both looked-up values trim to the shared key. -/
theorem colDiffers_first_false {A B : RecordSet} {k c0 : String} {rA rB : List String}
    (hrA : lookup A.rows k = some rA) (hrB : lookup B.rows k = some rB)
    (h0A : A.schema.head? = some c0) (h0B : B.schema.head? = some c0) :
    colDiffers A.schema B.schema rA rB c0 = false := by
  by_cases hcod : c0 = "COD_REF"
  · simp [colDiffers, hcod]
  · obtain ⟨tA, htA⟩ := head?_some_cons h0A
    obtain ⟨tB, htB⟩ := head?_some_cons h0B
    have hA0 : columnValue A.schema rA c0 = rA.get? 0 := by
      rw [htA]
      exact columnValue_head
    have hB0 : columnValue B.schema rB c0 = rB.get? 0 := by
      rw [htB]
      exact columnValue_head
    have htrA : strip ((rA.get? 0).getD "") = k := by
      rw [getD_get?_zero_eq_headD]
      exact lookup_some_key hrA
    have htrB : strip ((rB.get? 0).getD "") = k := by
      rw [getD_get?_zero_eq_headD]
      exact lookup_some_key hrB
    simp only [colDiffers, if_neg hcod, hA0, hB0]
    rw [htrA, htrB]
    simp

theorem diffLoop_ok_of_all {A B : RecordSet} :
    ∀ cs : List String, (∀ c ∈ cs, ∃ o, processCode A B c = Except.ok o) →
      ∃ l, diffLoop A B cs = Except.ok l := by
  intro cs
  induction cs with
  | nil => intro _; exact ⟨[], rfl⟩
  | cons c cs ih =>
    intro hall
    obtain ⟨o, ho⟩ := hall c (List.mem_cons_self c cs)
    obtain ⟨l, hl⟩ := ih (fun d hd => hall d (List.mem_cons_of_mem c hd))
    exact ⟨consOpt o l, by simp [diffLoop, ho, hl]⟩

/-- Folding single-character replacements over a character list is the same
as one pointwise replacement pass (the replacement `_` is never itself
replaced because it is not an invalid character). -/
theorem foldl_replace_eq_map :
    ∀ cs : List Char, ('_' : Char) ∉ cs → ∀ l : List Char,
      cs.foldl (fun s c => s.map (fun x => if x == c then '_' else x)) l =
        l.map (fun x => if cs.contains x then '_' else x) := by
  intro cs
  induction cs with
  | nil =>
    intro _ l
    simp
  | cons c cs ih =>
    intro hnm l
    have hnc : ('_' : Char) ∉ cs := fun hm => hnm (List.mem_cons_of_mem c hm)
    have hne : ('_' : Char) ≠ c := fun he => hnm (he ▸ List.mem_cons_self c cs)
    rw [List.foldl_cons, ih hnc, List.map_map]
    apply List.map_congr_left
    intro x _
    by_cases hxc : x = c
    · subst hxc
      have h1 : cs.contains '_' = false := by
        cases hcc : cs.contains '_' with
        | false => rfl
        | true => exact absurd (by simpa using hcc) hnc
      simp [Function.comp, h1, List.contains_cons]
    · simp [Function.comp, hxc, List.contains_cons]

/-- The collision loop returns the first candidate (base, base_1, base_2, …
scanned in order) absent from the existing sheet names. -/
theorem pickSheetName_spec {existing : List String} {base : String} :
    ∀ fuel i r, pickSheetName existing base i fuel = some r →
      ∃ n, i ≤ n ∧ r = candidateName base n ∧ existing.contains r = false ∧
        ∀ j, i ≤ j → j < n → existing.contains (candidateName base j) = true := by
  intro fuel
  induction fuel with
  | zero => intro i r h; cases h
  | succ fuel ih =>
    intro i r h
    by_cases hc : existing.contains (candidateName base i) = true
    · simp only [pickSheetName, if_pos hc] at h
      obtain ⟨n, hin, hr, hnc, hall⟩ := ih (i + 1) r h
      refine ⟨n, by omega, hr, hnc, fun j hij hjn => ?_⟩
      by_cases hji : j = i
      · rw [hji]
        exact hc
      · exact hall j (by omega) hjn
    · simp only [pickSheetName, if_neg hc] at h
      refine ⟨i, le_refl i, (Option.some.inj h).symm, ?_, fun j hij hjn => by omega⟩
      rw [← Option.some.inj h]
      exact Bool.eq_false_iff.mpr hc

/-- Core argument for the exclusive-entry claim, shared by both symmetric
cases: when the processing of key `k` yields an exclusive entry, the result
list contains that entry exactly once and no other exclusive entry for `k`. -/
theorem diff_exclusive_core {A B : RecordSet} {k : String} {l : List DiffEntry}
    {r : List String} {lab : String}
    (hdl : diffLoop A B (allCodes A B) = Except.ok l)
    (hkcs : k ∈ allCodes A B)
    (hpck : processCode A B k = Except.ok (some (DiffEntry.exclusive r lab)))
    (hkey : rowKey r = k) :
    l.count (DiffEntry.exclusive r lab) = 1 ∧
      ∀ e ∈ l, isExclusiveFor k e → e = DiffEntry.exclusive r lab := by
  have hfm := diffLoop_ok_filterMap hdl
  have hemk : emitted A B k = some (DiffEntry.exclusive r lab) := by
    simp [emitted, hpck]
  constructor
  · rw [hfm, count_filterMap_eq_countP]
    apply countP_eq_one_of_unique (List.nodup_dedup _) hkcs
    · simp [hemk]
    · intro c hc hpc
      have hc2 : emitted A B c = some (DiffEntry.exclusive r lab) := by
        simpa using hpc
      have hkc := processCode_exclusive_key (emitted_ok hc2)
      exact hkc ▸ hkey
  · intro e he hex
    rw [hfm] at he
    obtain ⟨c, hcmem, hce⟩ := List.mem_filterMap.mp he
    cases e with
    | conflict m dc => exact absurd hex (by simp [isExclusiveFor])
    | exclusive rec lb =>
      have hkc : rowKey rec = c := processCode_exclusive_key (emitted_ok hce)
      have hck : c = k := by
        rw [← hkc]
        exact hex
      subst hck
      rw [hemk] at hce
      exact (Option.some.inj hce).symm

/-- C1: for every pair of input record sets and every key present in
exactly one of them, the diff result (when the comparison returns) contains
exactly one exclusive entry for that key, and that entry wraps the record
looked up in the set containing the key together with that set's label. -/
theorem diff_exclusive_unique
    (A B : RecordSet) (k : String) (res : Option (List DiffEntry))
    (hres : compare_dataframes A B = Except.ok res)
    (hxor : (k ∈ keys A ∧ k ∉ keys B) ∨ (k ∉ keys A ∧ k ∈ keys B)) :
    ∃ r lab,
      ((k ∈ keys A ∧ lookup A.rows k = some r ∧ lab = A.label) ∨
       (k ∈ keys B ∧ lookup B.rows k = some r ∧ lab = B.label)) ∧
      (entriesOf res).count (DiffEntry.exclusive r lab) = 1 ∧
      ∀ e ∈ entriesOf res, isExclusiveFor k e → e = DiffEntry.exclusive r lab := by
  obtain ⟨l, hdl, hent⟩ := compare_ok_entries hres
  rw [hent]
  rcases hxor with ⟨hA, hB⟩ | ⟨hA, hB⟩
  · obtain ⟨rA, hrA⟩ := lookup_isSome_of_mem_keys hA
    have hBn := lookup_eq_none_of_not_mem_keys hB
    have hkcs : k ∈ allCodes A B := by
      rw [allCodes, List.mem_dedup, List.mem_append]
      exact Or.inl hA
    have hcore := diff_exclusive_core hdl hkcs
      (processCode_of_exclusiveA hrA hBn) (lookup_some_key hrA)
    exact ⟨rA, A.label, Or.inl ⟨hA, hrA, rfl⟩, hcore.1, hcore.2⟩
  · obtain ⟨rB, hrB⟩ := lookup_isSome_of_mem_keys hB
    have hAn := lookup_eq_none_of_not_mem_keys hA
    have hkcs : k ∈ allCodes A B := by
      rw [allCodes, List.mem_dedup, List.mem_append]
      exact Or.inr hB
    have hcore := diff_exclusive_core hdl hkcs
      (processCode_of_exclusiveB hAn hrB) (lookup_some_key hrB)
    exact ⟨rB, B.label, Or.inr ⟨hB, hrB, rfl⟩, hcore.1, hcore.2⟩

/-- Concrete inputs used to witness C1: key "2" is exclusive to the first
set. -/
def exA1 : RecordSet := RecordSet.mk ["K", "V"] [["1", "x"], ["2", "y"]] "dA"

def exB1 : RecordSet := RecordSet.mk ["K", "V"] [["1", "x"]] "dB"

/-- Witness for C1 at concrete inputs. -/
theorem diff_exclusive_unique_witness :
    ∃ r lab,
      (("2" ∈ keys exA1 ∧ lookup exA1.rows "2" = some r ∧ lab = exA1.label) ∨
       ("2" ∈ keys exB1 ∧ lookup exB1.rows "2" = some r ∧ lab = exB1.label)) ∧
      (entriesOf (some [DiffEntry.exclusive ["2", "y"] "dA"])).count
        (DiffEntry.exclusive r lab) = 1 ∧
      ∀ e ∈ entriesOf (some [DiffEntry.exclusive ["2", "y"] "dA"]),
        isExclusiveFor "2" e → e = DiffEntry.exclusive r lab :=
  diff_exclusive_unique exA1 exB1 "2" (some [DiffEntry.exclusive ["2", "y"] "dA"])
    (by rfl) (Or.inl ⟨by decide, by decide⟩)

/-- Concrete inputs refuting C2 as stated: the two schemas have different
first columns, the shared first-column name "K" sits at position 1 of the
second schema, and its looked-up values differ. -/
def cexA2 : RecordSet := RecordSet.mk ["K", "P"] [["7", "x"]] "cA"

def cexB2 : RecordSet := RecordSet.mk ["Z", "K", "P"] [["7", "DIFF", "x"]] "cB"

/-- C2 counterexample: a Conflict entry is emitted for key "7" although
every non-key column (here only "P") matches after trimming — the differing
column is the key column "K" itself, compared against position 1 of the
B-side frame.  This refutes the claimed "only if a non-key column differs"
direction. -/
theorem diff_conflict_nonkey_cex :
    compare_dataframes cexA2 cexB2 =
      Except.ok (some [DiffEntry.conflict ["7/DIFF", "x"] ["K"]]) ∧
    cexA2.schema.tail.all
      (fun col =>
        !(colDiffers cexA2.schema cexB2.schema ["7", "x"] ["7", "DIFF", "x"] col)) =
      true :=
  ⟨by rfl, by rfl⟩

/-- C2 (amended): assuming the two schemas share their first column name
(in particular, for equal schemas), a key present in both record sets
yields a Conflict entry iff some non-key column of the first schema differs
after trimming, and yields no entry at all when every non-key column
matches; the diff result is exactly the concatenated per-key emissions. -/
theorem diff_conflict_iff
    (A B : RecordSet) (k c0 : String) (res : Option (List DiffEntry))
    (rA rB : List String)
    (hres : compare_dataframes A B = Except.ok res)
    (hrA : lookup A.rows k = some rA) (hrB : lookup B.rows k = some rB)
    (h0A : A.schema.head? = some c0) (h0B : B.schema.head? = some c0) :
    entriesOf res = (allCodes A B).filterMap (emitted A B) ∧
    ((∃ col ∈ A.schema.tail, colDiffers A.schema B.schema rA rB col = true) →
      ∃ m dc, emitted A B k = some (DiffEntry.conflict m dc)) ∧
    ((∀ col ∈ A.schema.tail, colDiffers A.schema B.schema rA rB col = false) →
      emitted A B k = none) := by
  obtain ⟨l, hdl, hent⟩ := compare_ok_entries hres
  have hfm := diffLoop_ok_filterMap hdl
  have hkA : k ∈ keys A := List.mem_map.mpr ⟨rA, lookup_mem hrA, lookup_some_key hrA⟩
  have hkcs : k ∈ allCodes A B := by
    rw [allCodes, List.mem_dedup, List.mem_append]
    exact Or.inl hkA
  obtain ⟨o, ho⟩ := diffLoop_ok_proc hdl hkcs
  obtain ⟨tA, htA⟩ := head?_some_cons h0A
  have hkey0 := colDiffers_first_false hrA hrB h0A h0B
  cases hcc : compareCols A.schema B.schema rA rB A.schema ([], rA) with
  | none => rw [processCode_of_both_err hrA hrB hcc] at ho; cases ho
  | some p =>
    obtain ⟨dc, m⟩ := p
    have hpck := processCode_of_both hrA hrB hcc
    have hdc : dc = A.schema.filter (colDiffers A.schema B.schema rA rB) := by
      simpa using compareCols_fst A.schema ([], rA) (dc, m) hcc
    refine ⟨hent.trans hfm, ?_, ?_⟩
    · rintro ⟨col, hcolmem, hcold⟩
      rw [htA, List.tail_cons] at hcolmem
      have hcolschema : col ∈ A.schema := by
        rw [htA]
        exact List.mem_cons_of_mem c0 hcolmem
      have hdcne : dc ≠ [] := by
        rw [hdc]
        intro hnil
        have hmm : col ∈ A.schema.filter (colDiffers A.schema B.schema rA rB) :=
          List.mem_filter.mpr ⟨hcolschema, hcold⟩
        rw [hnil] at hmm
        cases hmm
      have hie : dc.isEmpty = false := by
        cases dc with
        | nil => exact absurd rfl hdcne
        | cons a t => rfl
      exact ⟨m, dc, by simp [emitted, hpck, hie]⟩
    · intro hall
      have hdceq : dc = [] := by
        rw [hdc]
        refine List.filter_eq_nil_iff.mpr (fun col hcol => ?_)
        rw [htA] at hcol
        rcases List.mem_cons.mp hcol with rfl | hcol2
        · simp [hkey0]
        · have hct : col ∈ A.schema.tail := by
            rw [htA, List.tail_cons]
            exact hcol2
          simp [hall col hct]
      subst hdceq
      simp [emitted, hpck]

/-- Concrete inputs used to witness C2 (amended): equal schemas, key "1" in
both, value column "P" differing. -/
def exA2w : RecordSet := RecordSet.mk ["K", "P"] [["1", "a"]] "wa"

def exB2w : RecordSet := RecordSet.mk ["K", "P"] [["1", "b"]] "wb"

/-- Witness for C2 (amended) at concrete inputs. -/
theorem diff_conflict_iff_witness :
    entriesOf (some [DiffEntry.conflict ["1", "a/b"] ["P"]]) =
      (allCodes exA2w exB2w).filterMap (emitted exA2w exB2w) ∧
    ((∃ col ∈ exA2w.schema.tail,
        colDiffers exA2w.schema exB2w.schema ["1", "a"] ["1", "b"] col = true) →
      ∃ m dc, emitted exA2w exB2w "1" = some (DiffEntry.conflict m dc)) ∧
    ((∀ col ∈ exA2w.schema.tail,
        colDiffers exA2w.schema exB2w.schema ["1", "a"] ["1", "b"] col = false) →
      emitted exA2w exB2w "1" = none) :=
  diff_conflict_iff exA2w exB2w "1" "K" (some [DiffEntry.conflict ["1", "a/b"] ["P"]])
    ["1", "a"] ["1", "b"] (by rfl) (by rfl) (by rfl) (by rfl) (by rfl)

/-- C3: every Conflict entry of the diff result lists exactly the columns
whose trimmed values differ between the two sides, in first-schema order,
and its merged record agrees with the A-side row except at the differing
columns, which hold trimmed-A ++ "/" ++ trimmed-B (`mergedSpec`).  The
schema-uniqueness and row-length hypotheses are the spec's RecordSet
well-formedness invariants. -/
theorem diff_conflict_content
    (A B : RecordSet) (res : Option (List DiffEntry)) (m dc : List String)
    (hres : compare_dataframes A B = Except.ok res)
    (hmem : DiffEntry.conflict m dc ∈ entriesOf res)
    (hnd : A.schema.Nodup)
    (hwfA : ∀ r ∈ A.rows, r.length = A.schema.length) :
    ∃ k rA rB, lookup A.rows k = some rA ∧ lookup B.rows k = some rB ∧
      rowKey rA = k ∧
      dc = A.schema.filter (colDiffers A.schema B.schema rA rB) ∧ dc ≠ [] ∧
      m = mergedSpec A.schema B.schema rA rB := by
  obtain ⟨l, hdl, hent⟩ := compare_ok_entries hres
  rw [hent, diffLoop_ok_filterMap hdl] at hmem
  obtain ⟨c, hccs, hce⟩ := List.mem_filterMap.mp hmem
  obtain ⟨rA, rB, hrA, hrB, hcc, hdcne⟩ := processCode_conflict (emitted_ok hce)
  refine ⟨c, rA, rB, hrA, hrB, lookup_some_key hrA, ?_, hdcne, ?_⟩
  · simpa using compareCols_fst A.schema ([], rA) (dc, m) hcc
  · exact compareCols_merged hnd (hwfA rA (lookup_mem hrA)) hcc

/-- Concrete inputs used to witness C3 (the spec's Scenario 1): prices 10
vs 12 for the common key. -/
def exA3 : RecordSet := RecordSet.mk ["K", "P"] [["1", "10"]] "x"

def exB3 : RecordSet := RecordSet.mk ["K", "P"] [["1", "12"]] "y"

/-- Witness for C3 at concrete inputs. -/
theorem diff_conflict_content_witness :
    ∃ k rA rB, lookup exA3.rows k = some rA ∧ lookup exB3.rows k = some rB ∧
      rowKey rA = k ∧
      ["P"] = exA3.schema.filter (colDiffers exA3.schema exB3.schema rA rB) ∧
      (["P"] : List String) ≠ [] ∧
      ["1", "10/12"] = mergedSpec exA3.schema exB3.schema rA rB :=
  diff_conflict_content exA3 exB3
    (some [DiffEntry.conflict ["1", "10/12"] ["P"]]) ["1", "10/12"] ["P"]
    (by rfl) (by simp [entriesOf]) (by decide) (by decide)

/-- Concrete inputs refuting C10 as stated: the shared first-column name
"K" of the A-side schema sits at position 1 of the B-side schema, so the
key column is compared against an unrelated cell and lands in the
differing-column list. -/
def cexA10 : RecordSet := RecordSet.mk ["K", "X"] [["1", "a"]] "dA"

def cexB10 : RecordSet := RecordSet.mk ["Y", "K", "X"] [["1", "zzz", "a"]] "dB"

/-- C10 counterexample: the emitted Conflict entry's differing-column list
is exactly ["K"] — the A-side key column — refuting the claim that the key
column can never appear there. -/
theorem key_column_in_conflict_cex :
    compare_dataframes cexA10 cexB10 =
      Except.ok (some [DiffEntry.conflict ["1/zzz", "a"] ["K"]]) ∧
    cexA10.schema.headD "" = "K" :=
  ⟨by rfl, by rfl⟩

/-- C10 (amended): provided the two schemas share their first column name
(in particular, for equal schemas), the differing-column list of a Conflict
entry never contains that key column: both looked-up first-column values
trim to the shared key. -/
theorem key_column_never_differs
    (A B : RecordSet) (c0 : String) (res : Option (List DiffEntry)) (m dc : List String)
    (hres : compare_dataframes A B = Except.ok res)
    (h0A : A.schema.head? = some c0) (h0B : B.schema.head? = some c0)
    (hmem : DiffEntry.conflict m dc ∈ entriesOf res) :
    c0 ∉ dc := by
  obtain ⟨l, hdl, hent⟩ := compare_ok_entries hres
  rw [hent, diffLoop_ok_filterMap hdl] at hmem
  obtain ⟨c, hccs, hce⟩ := List.mem_filterMap.mp hmem
  obtain ⟨rA, rB, hrA, hrB, hcc, -⟩ := processCode_conflict (emitted_ok hce)
  have hdc : dc = A.schema.filter (colDiffers A.schema B.schema rA rB) := by
    simpa using compareCols_fst A.schema ([], rA) (dc, m) hcc
  intro hin
  rw [hdc] at hin
  have hd := (List.mem_filter.mp hin).2
  rw [colDiffers_first_false hrA hrB h0A h0B] at hd
  cases hd

/-- Concrete inputs used to witness C10 (amended): equal schemas, value
column "Q" differing. -/
def exA10w : RecordSet := RecordSet.mk ["K", "Q"] [["5", "m"]] "w1"

def exB10w : RecordSet := RecordSet.mk ["K", "Q"] [["5", "n"]] "w2"

/-- Witness for C10 (amended) at concrete inputs. -/
theorem key_column_never_differs_witness : "K" ∉ (["Q"] : List String) :=
  key_column_never_differs exA10w exB10w "K"
    (some [DiffEntry.conflict ["5", "m/n"] ["Q"]]) ["5", "m/n"] ["Q"]
    (by rfl) (by rfl) (by rfl) (by simp [entriesOf])

/-- Concrete inputs refuting the totality half of C4: column "X" of the
first schema is absent from the second schema while key "1" is shared. -/
def cexA4 : RecordSet := RecordSet.mk ["K", "X"] [["1", "a"]] "dA"

def cexB4 : RecordSet := RecordSet.mk ["K"] [["1"]] "dB"

/-- C4 counterexample: `diff` is not total — when a column of the A-side
schema is missing from the B-side schema and some key is shared, the lookup
`row2[col]` fails (Python `KeyError`), so the comparison errors instead of
returning a result. -/
theorem diff_not_total_cex :
    compare_dataframes cexA4 cexB4 = Except.error () :=
  by rfl

/-- C4 (amended): `diff` succeeds whenever every column of the A-side
schema also appears in the B-side schema (in particular for equal schemas,
or when the B-side schema is a superset); the comparison is then performed
only over A-side columns, and every differing column it surfaces belongs to
the A-side schema, so B-unique columns are neither compared nor surfaced. -/
theorem diff_total_of_subschema
    (A B : RecordSet)
    (hwfA : ∀ r ∈ A.rows, r.length = A.schema.length)
    (hwfB : ∀ r ∈ B.rows, r.length = B.schema.length)
    (hcols : ∀ col ∈ A.schema, col ∈ B.schema) :
    ∃ res, compare_dataframes A B = Except.ok res ∧
      ∀ m dc, DiffEntry.conflict m dc ∈ entriesOf res → ∀ col ∈ dc, col ∈ A.schema := by
  have hproc : ∀ c ∈ allCodes A B, ∃ o, processCode A B c = Except.ok o := by
    intro c hc
    have hmem := List.mem_append.mp (List.mem_dedup.mp hc)
    cases hA : lookup A.rows c with
    | some rA =>
      cases hB : lookup B.rows c with
      | none => exact ⟨_, processCode_of_exclusiveA hA hB⟩
      | some rB =>
        have hlenA : A.schema.length ≤ rA.length :=
          le_of_eq (hwfA rA (lookup_mem hA)).symm
        have hlenB : B.schema.length ≤ rB.length :=
          le_of_eq (hwfB rB (lookup_mem hB)).symm
        have hccs : (compareCols A.schema B.schema rA rB A.schema ([], rA)).isSome = true :=
          compareCols_isSome A.schema ([], rA)
            (fun col hcol => Or.inr
              ⟨columnValue_isSome_of_mem hcol hlenA,
               columnValue_isSome_of_mem (hcols col hcol) hlenB⟩)
        obtain ⟨p, hcc⟩ := Option.isSome_iff_exists.mp hccs
        obtain ⟨dc, m⟩ := p
        exact ⟨_, processCode_of_both hA hB hcc⟩
    | none =>
      cases hB : lookup B.rows c with
      | some rB => exact ⟨_, processCode_of_exclusiveB hA hB⟩
      | none =>
        exfalso
        rcases hmem with hka | hkb
        · obtain ⟨r, hr⟩ := lookup_isSome_of_mem_keys hka
          rw [hA] at hr
          cases hr
        · obtain ⟨r, hr⟩ := lookup_isSome_of_mem_keys hkb
          rw [hB] at hr
          cases hr
  obtain ⟨l, hl⟩ := diffLoop_ok_of_all (allCodes A B) hproc
  refine ⟨if l.isEmpty then none else some l, by simp [compare_dataframes, hl], ?_⟩
  have hent : entriesOf (if l.isEmpty then none else some l) = l := by
    by_cases he : l.isEmpty
    · simp [he, entriesOf, List.isEmpty_iff.mp he]
    · simp [he, entriesOf]
  intro m dc hmem col hcoldc
  rw [hent, diffLoop_ok_filterMap hl] at hmem
  obtain ⟨c, hccs, hce⟩ := List.mem_filterMap.mp hmem
  obtain ⟨rA, rB, hrA, hrB, hcc, -⟩ := processCode_conflict (emitted_ok hce)
  have hdc : dc = A.schema.filter (colDiffers A.schema B.schema rA rB) := by
    simpa using compareCols_fst A.schema ([], rA) (dc, m) hcc
  rw [hdc] at hcoldc
  exact (List.mem_filter.mp hcoldc).1

/-- Concrete inputs used to witness C4 (amended): equal schemas, one
exclusive key. -/
def exA4w : RecordSet := RecordSet.mk ["K", "W"] [["1", "u"], ["2", "v"]] "wa"

def exB4w : RecordSet := RecordSet.mk ["K", "W"] [["1", "u"]] "wb"

/-- Witness for C4 (amended) at concrete inputs. -/
theorem diff_total_of_subschema_witness :
    ∃ res, compare_dataframes exA4w exB4w = Except.ok res ∧
      ∀ m dc, DiffEntry.conflict m dc ∈ entriesOf res →
        ∀ col ∈ dc, col ∈ exA4w.schema :=
  diff_total_of_subschema exA4w exB4w (by decide) (by decide) (by decide)

/-- Concrete inputs refuting the last-occurrence half of C5: two rows of
the first document share the key "1". -/
def cexA5 : RecordSet := RecordSet.mk ["K", "V"] [["1", "a"], ["1", "b"]] "dA"

def cexB5 : RecordSet := RecordSet.mk ["K", "V"] ([] : List (List String)) "dB"

/-- C5 counterexample: with duplicate keys in one document, the keyed
lookup used by the diff (`df[df['COD_REF'] == code].iloc[0]`) returns the
FIRST matching row, so the exclusive entry wraps ["1", "a"], not the later
row ["1", "b"] that the claim's "last occurrence wins" rule would select. -/
theorem dup_key_last_wins_cex :
    compare_dataframes cexA5 cexB5 =
      Except.ok (some [DiffEntry.exclusive ["1", "a"] "dA"]) ∧
    DiffEntry.exclusive (["1", "a"] : List String) "dA" ≠
      DiffEntry.exclusive ["1", "b"] "dA" :=
  ⟨by rfl, by decide⟩

/-- C5 (amended): duplicate keys are indeed not deduplicated, but in the
keyed lookup the FIRST row whose key matches wins — rows before the first
match are skipped only when their key differs, and later duplicates are
ignored. -/
theorem lookup_first_occurrence
    (pre post : List (List String)) (r : List String) (k : String)
    (hpre : ∀ r2 ∈ pre, rowKey r2 ≠ k) (hr : rowKey r = k) :
    lookup (pre ++ r :: post) k = some r := by
  induction pre with
  | nil =>
    rw [List.nil_append]
    exact List.find?_cons_of_pos post (by simp [hr])
  | cons q pre ih =>
    have hq : ¬ (rowKey q == k) = true := by
      simp
      exact hpre q (List.mem_cons_self q pre)
    rw [List.cons_append, lookup,
      @List.find?_cons_of_neg (List String) (fun r2 => rowKey r2 == k) q
        (pre ++ r :: post) hq]
    exact ih (fun r2 h2 => hpre r2 (List.mem_cons_of_mem q h2))

/-- Witness for C5 (amended) at concrete inputs: the first "1"-keyed row is
returned even though a later duplicate exists. -/
theorem lookup_first_occurrence_witness :
    lookup [["2", "z"], ["1", "a"], ["1", "b"]] "1" = some ["1", "a"] :=
  lookup_first_occurrence [["2", "z"]] [["1", "b"]] ["1", "a"] "1"
    (by decide) (by rfl)

/-- C6: diffing a record set against itself yields the distinguished
"no differences" result (`Except.ok none`, the Python `return None`), not
an error; the row-length hypothesis is the RecordSet well-formedness
invariant. -/
theorem diff_self_empty (A : RecordSet)
    (hwf : ∀ r ∈ A.rows, r.length = A.schema.length) :
    compare_dataframes A A = Except.ok none := by
  have hloop : ∀ cs : List String, (∀ c ∈ cs, c ∈ keys A) →
      diffLoop A A cs = Except.ok [] := by
    intro cs
    induction cs with
    | nil => intro _; rfl
    | cons c cs ih =>
      intro hall
      obtain ⟨r, hr⟩ := lookup_isSome_of_mem_keys (hall c (List.mem_cons_self c cs))
      have hcc : compareCols A.schema A.schema r r A.schema ([], r) = some ([], r) :=
        compareCols_self (le_of_eq (hwf r (lookup_mem hr)).symm) A.schema ([], r)
          (fun col hc => hc)
      have hpc := processCode_of_both hr hr hcc
      simp only [List.isEmpty_nil, if_true] at hpc
      have hrest := ih (fun d hd => hall d (List.mem_cons_of_mem c hd))
      simp [diffLoop, hpc, hrest, consOpt]
  have hdl : diffLoop A A (allCodes A A) = Except.ok [] := by
    refine hloop _ (fun c hc => ?_)
    rcases List.mem_append.mp (List.mem_dedup.mp hc) with h | h <;> exact h
  simp [compare_dataframes, hdl]

/-- Concrete input used to witness C6 (note the untrimmed cell). -/
def exA6 : RecordSet := RecordSet.mk ["K", "P"] [["1", " x "]] "d"

/-- Witness for C6 at a concrete input. -/
theorem diff_self_empty_witness :
    compare_dataframes exA6 exA6 = Except.ok none :=
  diff_self_empty exA6 (by decide)

/-- C7 counterexample: normalization keeps surviving rows with their cell
values exactly as extracted — the kept row still holds " a " with its
padding, refuting the claim that every cell value is trimmed.  (Trimming is
applied only inside the blank-first-cell test and later during
comparison.) -/
theorem normalize_untrimmed_cex :
    normalize [["CÓD. REF", "H"], [" a ", " b "]] = [[" a ", " b "]] ∧
    (" a " : String) ≠ "a" :=
  ⟨by rfl, by decide⟩

/-- C7 (amended): normalization iterates only rows strictly after the
header row, keeps exactly the rows whose cell count equals the schema
length and whose first cell is nonempty after trimming, preserving their
order and their (untrimmed) cell values; an empty result is valid. -/
theorem normalize_characterization (rows : List (List String)) :
    (normalize rows).Sublist (rows.drop (headerIdx rows + 1)) ∧
    ∀ r, r ∈ normalize rows ↔
      (r ∈ rows.drop (headerIdx rows + 1) ∧ r.length = (schemaOf rows).length ∧
        strip (r.headD "") ≠ "") := by
  constructor
  · exact (List.filter_sublist _).trans (List.filter_sublist _)
  · intro r
    constructor
    · intro h
      have h1 := List.mem_filter.mp h
      have h2 := List.mem_filter.mp h1.1
      refine ⟨h2.1, by simpa using h2.2, by simpa using h1.2⟩
    · rintro ⟨hmem, hlen, hkey⟩
      exact List.mem_filter.mpr
        ⟨List.mem_filter.mpr ⟨hmem, by simpa using hlen⟩, by simpa using hkey⟩

/-- Witness for C7 (amended): order-preserving sublist at a concrete
input. -/
theorem normalize_characterization_witness :
    (normalize [["CÓD. REF", "H"], ["r", "s"], ["bad"]]).Sublist
      ([["CÓD. REF", "H"], ["r", "s"], ["bad"]].drop
        (headerIdx [["CÓD. REF", "H"], ["r", "s"], ["bad"]] + 1)) :=
  (normalize_characterization [["CÓD. REF", "H"], ["r", "s"], ["bad"]]).1

/-- C8 counterexample: the header scan matches by substring containment on
the raw cell text, not by trimmed equality.  Row 0's cell "CÓD. REFX"
contains the anchor as a substring (so the code selects row 0), yet no cell
of row 0 has trimmed text equal to the anchor, while row 1 does — the
claimed trimmed-equality rule would have selected row 1. -/
theorem header_trimmed_equality_cex :
    findHeaderIdx [["CÓD. REFX"], [" CÓD. REF "]] = some 0 ∧
    (["CÓD. REFX"] : List String).any (fun cell => strip cell == anchorToken) = false ∧
    ([" CÓD. REF "] : List String).any (fun cell => strip cell == anchorToken) = true :=
  ⟨by rfl, by rfl, by rfl⟩

/-- C8 (amended): the header scan selects the first row containing a cell
whose raw text contains the anchor token as a substring (case-sensitive, no
trimming); when no row matches, it falls back to row 0 as the header (the
code prints a warning on that path). -/
theorem header_selection (rows : List (List String)) :
    (∀ i, findHeaderIdx rows = some i →
      headerIdx rows = i ∧ rowHasAnchor (rows.getD i []) = true ∧
      ∀ j, j < i → rowHasAnchor (rows.getD j []) = false) ∧
    (findHeaderIdx rows = none →
      headerIdx rows = 0 ∧ ∀ row ∈ rows, rowHasAnchor row = false) := by
  constructor
  · intro i hi
    refine ⟨by simp [headerIdx, hi], ?_, ?_⟩
    · obtain ⟨a, ha, hpa⟩ := firstIdx_some_get? hi
      have hga : rows.getD i [] = a := by
        rw [List.getD_eq_get?, ha]
        rfl
      rw [hga]
      exact hpa
    · intro j hj
      have hlt : i < rows.length := firstIdx_lt_length hi
      exact firstIdx_some_min hi j hj (rows.getD j [])
        (get?_eq_some_getD rows [] (lt_trans hj hlt))
  · intro hn
    exact ⟨by simp [headerIdx, hn], firstIdx_none_all hn⟩

/-- Witness for C8 (amended): the anchor sits in row 1 of a concrete
input. -/
theorem header_selection_witness :
    headerIdx [["x"], ["has CÓD. REF inside"]] = 1 ∧
    rowHasAnchor ([["x"], ["has CÓD. REF inside"]].getD 1 []) = true ∧
    ∀ j, j < 1 → rowHasAnchor ([["x"], ["has CÓD. REF inside"]].getD j []) = false :=
  (header_selection [["x"], ["has CÓD. REF inside"]]).1 1 (by rfl)

/-- C9 counterexample: sanitization replaces each invalid character with an
underscore rather than stripping (removing) it: "a/b" becomes "a_b", not
the "ab" the claimed stripping rule would produce. -/
theorem sanitize_strip_cex :
    sanitize_sheet_name "a/b" = "a_b" ∧ sanitizeSpecStrip "a/b" = "ab" ∧
    ("a_b" : String) ≠ "ab" :=
  ⟨by rfl, by rfl, by decide⟩

/-- C9 (amended): sanitization replaces each of the characters
`\\ / * [ ] : ?` with an underscore and truncates the result to 31
characters; on collision the candidates base, base_1, base_2, … are tried
in order and the first one absent from the existing sheet names is used. -/
theorem sanitize_replaces_and_suffixes
    (name : String) (existing : List String) (base r : String) (fuel : Nat)
    (hpick : pickSheetName existing base 0 fuel = some r) :
    sanitize_sheet_name name =
      String.mk ((name.toList.map
        (fun c => if invalidChars.contains c then '_' else c)).take 31) ∧
    ∃ n, r = candidateName base n ∧ existing.contains r = false ∧
      ∀ j, j < n → existing.contains (candidateName base j) = true := by
  constructor
  · unfold sanitize_sheet_name
    rw [foldl_replace_eq_map invalidChars (by decide) name.toList]
  · obtain ⟨n, -, hr, hnc, hall⟩ := pickSheetName_spec fuel 0 r hpick
    exact ⟨n, hr, hnc, fun j hj => hall j (Nat.zero_le j) hj⟩

/-- Witness for C9 (amended): two collisions resolved to the suffix _2. -/
theorem sanitize_replaces_and_suffixes_witness :
    sanitize_sheet_name "a[1]" =
      String.mk ((("a[1]" : String).toList.map
        (fun c => if invalidChars.contains c then '_' else c)).take 31) ∧
    ∃ n, "D_2" = candidateName "D" n ∧
      (["D", "D_1"] : List String).contains "D_2" = false ∧
      ∀ j, j < n → (["D", "D_1"] : List String).contains (candidateName "D" j) = true :=
  sanitize_replaces_and_suffixes "a[1]" ["D", "D_1"] "D" "D_2" 5 (by rfl)

end DiferencaOfertas
